import Mathlib

/-!
Formal verification of the numerical logic in the SimpleITK-Notebooks
tutorial repository.

The repository is tutorial glue over an imaging library; its own numerical
content is:

* a least-squares sphere fit (notebook cell: builds the matrix `A` with
  rows `[-2*p, 1]`, right-hand side `b` with entries `-norm(p)**2`, calls
  `linalg.lstsq`, and reports `res[0:3]` as the center and
  `np.sqrt(norm(res[0:3])**2 - res[3])` as the radius);
* `registration_errors`, the paired-point error reporter (defined in
  `registration_utilities.py`, outside this snapshot; modelled here from
  the specification);
* the exploration-exploitation initialization strategy of notebook 63
  (sequential best-orientation loop, thread-pool metric evaluation with
  `np.argmin` selection, and the exploitation step that sorts the collected
  `(metric_value, parameters)` pairs, refines the `min(3, len)` best ones
  and keeps the refined result with the smallest final metric value).

Machine floating-point arithmetic is modelled by real arithmetic; the
`numpy` behaviour `sqrt(negative) = nan` is modelled by `Real.sqrt` of a
negative number, which is `0` (a junk value produced without any error
signal, exactly as `nan` is).
-/

namespace SITK

/-! ## Least-squares sphere fit (notebook cell, `src/unnamed/part_000`)

The cell builds `A = np.ones((m, 4))`, overwrites `A[row, 0:3] = -2 * point`
(so column 3 keeps the value 1), sets `b[row] = -linalg.norm(point) ** 2`,
solves `res, _, _, _ = linalg.lstsq(A, b)` and reports center `res[0:3]`
and radius `np.sqrt(linalg.norm(res[0:3]) ** 2 - res[3])`. -/

/-- The matrix `A` of the sphere-fit cell: entries in columns `0..2` are
`-2 * point` (the overwritten part), column `3` keeps the `np.ones` value. -/
def sphereA {m : ℕ} (pts : Fin m → Fin 3 → ℝ) : Fin m → Fin 4 → ℝ :=
  fun i j => if h : (j : ℕ) < 3 then -2 * pts i ⟨j, h⟩ else 1

/-- The right-hand side `b` of the sphere-fit cell:
`b[row] = -linalg.norm(point) ** 2`. -/
noncomputable def sphereB {m : ℕ} (pts : Fin m → Fin 3 → ℝ) : Fin m → ℝ :=
  fun i => -Real.sqrt (∑ j, pts i j ^ 2) ^ 2

/-- Matrix-vector product, written out as the row sums used throughout. -/
def mulVecFn {m n : ℕ} (A : Fin m → Fin n → ℝ) (x : Fin n → ℝ) : Fin m → ℝ :=
  fun i => ∑ j, A i j * x j

/-- Sum of squared residuals of the linear system `A x = b` at `x`. -/
def residualSS {m n : ℕ} (A : Fin m → Fin n → ℝ) (b : Fin m → ℝ)
    (x : Fin n → ℝ) : ℝ :=
  ∑ i, (mulVecFn A x i - b i) ^ 2

/-- Contract of `linalg.lstsq`: the returned vector minimizes the sum of
squared residuals over all candidate vectors. -/
def IsLstsqSol {m n : ℕ} (A : Fin m → Fin n → ℝ) (b : Fin m → ℝ)
    (x : Fin n → ℝ) : Prop :=
  ∀ y, residualSS A b x ≤ residualSS A b y

/-- The center reported by the cell: `res[0:3]`. -/
def fitCenter (res : Fin 4 → ℝ) : Fin 3 → ℝ := fun j => res j.castSucc

/-- The radius reported by the cell:
`np.sqrt(linalg.norm(res[0:3]) ** 2 - res[3])`. -/
noncomputable def fitRadius (res : Fin 4 → ℝ) : ℝ :=
  Real.sqrt (Real.sqrt (∑ j, fitCenter res j ^ 2) ^ 2 - res 3)

lemma sphereA_col0 {m : ℕ} (pts : Fin m → Fin 3 → ℝ) (i : Fin m) :
    sphereA pts i 0 = -2 * pts i 0 := rfl

lemma sphereA_col1 {m : ℕ} (pts : Fin m → Fin 3 → ℝ) (i : Fin m) :
    sphereA pts i 1 = -2 * pts i 1 := rfl

lemma sphereA_col2 {m : ℕ} (pts : Fin m → Fin 3 → ℝ) (i : Fin m) :
    sphereA pts i 2 = -2 * pts i 2 := rfl

lemma sphereA_col3 {m : ℕ} (pts : Fin m → Fin 3 → ℝ) (i : Fin m) :
    sphereA pts i 3 = 1 := rfl

lemma sphereB_eq {m : ℕ} (pts : Fin m → Fin 3 → ℝ) (i : Fin m) :
    sphereB pts i = -(pts i 0 ^ 2 + pts i 1 ^ 2 + pts i 2 ^ 2) := by
  unfold sphereB
  rw [Real.sq_sqrt (by positivity), Fin.sum_univ_three]

lemma fitCenter_eq (res : Fin 4 → ℝ) :
    fitCenter res = ![res 0, res 1, res 2] := by
  funext j
  fin_cases j <;> rfl

/-- C2: for every family of `m ≥ 4` points the sphere-fit cell builds the
linear system whose `i`-th row is `[-2 * p_i, 1]` and whose `i`-th
right-hand-side entry is `-‖p_i‖²`, takes a least-squares solution
`res = [c_x, c_y, c_z, k]` of it, reports the first three components as the
center and reports `sqrt(‖c‖² - k)` as the radius. -/
theorem sphere_fit_system {m : ℕ} (hm : 4 ≤ m) (pts : Fin m → Fin 3 → ℝ)
    (res : Fin 4 → ℝ) (hres : IsLstsqSol (sphereA pts) (sphereB pts) res) :
    (∀ i, sphereA pts i = ![-2 * pts i 0, -2 * pts i 1, -2 * pts i 2, 1]) ∧
    (∀ i, sphereB pts i = -(pts i 0 ^ 2 + pts i 1 ^ 2 + pts i 2 ^ 2)) ∧
    (∀ y, residualSS (sphereA pts) (sphereB pts) res ≤
      residualSS (sphereA pts) (sphereB pts) y) ∧
    fitCenter res = ![res 0, res 1, res 2] ∧
    fitRadius res = Real.sqrt (res 0 ^ 2 + res 1 ^ 2 + res 2 ^ 2 - res 3) := by
  refine ⟨?_, sphereB_eq pts, hres, fitCenter_eq res, ?_⟩
  · intro i
    funext j
    fin_cases j <;> rfl
  · unfold fitRadius
    rw [Real.sq_sqrt (by positivity), Fin.sum_univ_three, fitCenter_eq]
    simp

/-- Demonstration points: four points on the unit sphere centered at the
origin, a non-degenerate configuration. -/
def demoPts : Fin 4 → Fin 3 → ℝ := ![![1, 0, 0], ![-1, 0, 0], ![0, 1, 0], ![0, 0, 1]]

/-- The exact solution vector for `demoPts`: center `(0,0,0)` and
`k = ‖c‖² - r² = -1`. -/
def demoRes : Fin 4 → ℝ := ![0, 0, 0, -1]

lemma demo_res_exact :
    ∀ i, mulVecFn (sphereA demoPts) demoRes i = sphereB demoPts i := by
  intro i
  have hb := sphereB_eq demoPts i
  fin_cases i <;>
    simp [mulVecFn, Fin.sum_univ_four, sphereA_col0, sphereA_col1, sphereA_col2,
      sphereA_col3, demoPts, demoRes, Matrix.vecHead, Matrix.vecTail] at hb ⊢ <;>
    norm_num [hb]

lemma demo_lstsq : IsLstsqSol (sphereA demoPts) (sphereB demoPts) demoRes := by
  intro y
  have hzero : ∀ i, mulVecFn (sphereA demoPts) demoRes i - sphereB demoPts i = 0 :=
    fun i => sub_eq_zero.mpr (demo_res_exact i)
  have h0 : residualSS (sphereA demoPts) (sphereB demoPts) demoRes = 0 := by
    unfold residualSS
    simp [hzero]
  rw [h0]
  unfold residualSS
  positivity

theorem sphere_fit_system_witness :
    IsLstsqSol (sphereA demoPts) (sphereB demoPts) demoRes ∧
    fitCenter demoRes = ![demoRes 0, demoRes 1, demoRes 2] :=
  ⟨demo_lstsq, (sphere_fit_system (by norm_num) demoPts demoRes demo_lstsq).2.2.2.1⟩

lemma sphere_row_exact {m : ℕ} (pts : Fin m → Fin 3 → ℝ) (c : Fin 3 → ℝ) (r : ℝ)
    (hsph : ∀ i, ∑ j, (pts i j - c j) ^ 2 = r ^ 2) (i : Fin m) :
    mulVecFn (sphereA pts)
      ![c 0, c 1, c 2, c 0 ^ 2 + c 1 ^ 2 + c 2 ^ 2 - r ^ 2] i = sphereB pts i := by
  have hs := hsph i
  rw [Fin.sum_univ_three] at hs
  rw [sphereB_eq]
  show ∑ j, sphereA pts i j * _ = _
  rw [Fin.sum_univ_four, sphereA_col0, sphereA_col1, sphereA_col2, sphereA_col3]
  simp only [Matrix.cons_val_zero, Matrix.cons_val_one, Matrix.head_cons,
    Matrix.cons_val_three, Matrix.cons_val_two, Matrix.tail_cons]
  nlinarith [hs]

/-- C3: if `m ≥ 4` points lie exactly on the sphere of center `c` and radius
`r ≥ 0`, and the configuration is non-degenerate (the system matrix is
injective, so the least-squares problem has a unique solution), then the
sphere-fit cell recovers exactly the center `c` and the radius `r`. -/
theorem fit_sphere_exact {m : ℕ} (hm : 4 ≤ m) (pts : Fin m → Fin 3 → ℝ)
    (c : Fin 3 → ℝ) (r : ℝ) (hr : 0 ≤ r)
    (hsph : ∀ i, ∑ j, (pts i j - c j) ^ 2 = r ^ 2)
    (hinj : ∀ x y, mulVecFn (sphereA pts) x = mulVecFn (sphereA pts) y → x = y)
    (res : Fin 4 → ℝ) (hres : IsLstsqSol (sphereA pts) (sphereB pts) res) :
    fitCenter res = c ∧ fitRadius res = r := by
  have hrow := sphere_row_exact pts c r hsph
  have hx0res : residualSS (sphereA pts) (sphereB pts)
      ![c 0, c 1, c 2, c 0 ^ 2 + c 1 ^ 2 + c 2 ^ 2 - r ^ 2] = 0 := by
    unfold residualSS
    have hzero : ∀ i, mulVecFn (sphereA pts)
        ![c 0, c 1, c 2, c 0 ^ 2 + c 1 ^ 2 + c 2 ^ 2 - r ^ 2] i - sphereB pts i = 0 :=
      fun i => sub_eq_zero.mpr (hrow i)
    simp [hzero]
  have hresge : 0 ≤ residualSS (sphereA pts) (sphereB pts) res := by
    unfold residualSS
    positivity
  have hres0 : residualSS (sphereA pts) (sphereB pts) res = 0 :=
    le_antisymm (hx0res ▸ hres _) hresge
  have hterm : ∀ i, mulVecFn (sphereA pts) res i = sphereB pts i := by
    intro i
    have hsq := (Finset.sum_eq_zero_iff_of_nonneg
      (fun i _ => sq_nonneg (mulVecFn (sphereA pts) res i - sphereB pts i))).1
      hres0 i (Finset.mem_univ i)
    have := sq_eq_zero_iff.mp hsq
    linarith [this]
  have heq : res = ![c 0, c 1, c 2, c 0 ^ 2 + c 1 ^ 2 + c 2 ^ 2 - r ^ 2] := by
    apply hinj
    funext i
    rw [hterm i, hrow i]
  constructor
  · funext j
    rw [heq]
    fin_cases j <;> rfl
  · rw [heq]
    unfold fitRadius
    have hsum : (∑ j, fitCenter
        ![c 0, c 1, c 2, c 0 ^ 2 + c 1 ^ 2 + c 2 ^ 2 - r ^ 2] j ^ 2) =
        c 0 ^ 2 + c 1 ^ 2 + c 2 ^ 2 := by
      rw [Fin.sum_univ_three]
      rfl
    rw [hsum, Real.sq_sqrt (by positivity)]
    have hk : (![c 0, c 1, c 2, c 0 ^ 2 + c 1 ^ 2 + c 2 ^ 2 - r ^ 2] : Fin 4 → ℝ) 3 =
        c 0 ^ 2 + c 1 ^ 2 + c 2 ^ 2 - r ^ 2 := rfl
    rw [hk]
    have : c 0 ^ 2 + c 1 ^ 2 + c 2 ^ 2 - (c 0 ^ 2 + c 1 ^ 2 + c 2 ^ 2 - r ^ 2) = r ^ 2 := by
      ring
    rw [this, Real.sqrt_sq hr]

/-- The center of the demonstration sphere. -/
def demoC : Fin 3 → ℝ := ![0, 0, 0]

lemma demo_inj :
    ∀ x y, mulVecFn (sphereA demoPts) x = mulVecFn (sphereA demoPts) y → x = y := by
  intro x y h
  have h0 := congrFun h 0
  have h1 := congrFun h 1
  have h2 := congrFun h 2
  have h3 := congrFun h 3
  simp only [mulVecFn, Fin.sum_univ_four, sphereA_col0, sphereA_col1, sphereA_col2,
    sphereA_col3,
    show demoPts 0 0 = 1 from rfl, show demoPts 0 1 = 0 from rfl,
    show demoPts 0 2 = 0 from rfl,
    show demoPts 1 0 = -1 from rfl, show demoPts 1 1 = 0 from rfl,
    show demoPts 1 2 = 0 from rfl,
    show demoPts 2 0 = 0 from rfl, show demoPts 2 1 = 1 from rfl,
    show demoPts 2 2 = 0 from rfl,
    show demoPts 3 0 = 0 from rfl, show demoPts 3 1 = 0 from rfl,
    show demoPts 3 2 = 1 from rfl] at h0 h1 h2 h3
  have hx0 : x 0 = y 0 := by linarith
  have hx3 : x 3 = y 3 := by linarith
  have hx1 : x 1 = y 1 := by linarith
  have hx2 : x 2 = y 2 := by linarith
  funext j
  fin_cases j
  · exact hx0
  · exact hx1
  · exact hx2
  · exact hx3

theorem fit_sphere_exact_witness :
    (∀ i, ∑ j, (demoPts i j - demoC j) ^ 2 = (1 : ℝ) ^ 2) ∧
    fitCenter demoRes = demoC ∧ fitRadius demoRes = 1 := by
  have hsph : ∀ i, ∑ j, (demoPts i j - demoC j) ^ 2 = (1 : ℝ) ^ 2 := by
    intro i
    fin_cases i <;>
      simp [demoPts, demoC, Fin.sum_univ_three, Matrix.vecHead, Matrix.vecTail]
  exact ⟨hsph, fit_sphere_exact (by norm_num) demoPts demoC 1 (by norm_num) hsph
    demo_inj demoRes demo_lstsq⟩

/-- Solution vector with `k = 1 > 0 = ‖c‖²`: the implied squared radius is
negative. -/
def badRes : Fin 4 → ℝ := ![0, 0, 0, 1]

/-- Second such vector, with `k = 2`. -/
def badRes2 : Fin 4 → ℝ := ![0, 0, 0, 2]

lemma badRes_center_sq :
    Real.sqrt (∑ j, fitCenter badRes j ^ 2) ^ 2 = 0 := by
  have h : (∑ j, fitCenter badRes j ^ 2) = 0 := by
    rw [Fin.sum_univ_three, show fitCenter badRes 0 = 0 from rfl,
      show fitCenter badRes 1 = 0 from rfl, show fitCenter badRes 2 = 0 from rfl]
    norm_num
  rw [h, Real.sqrt_zero]
  norm_num

lemma badRes2_center_sq :
    Real.sqrt (∑ j, fitCenter badRes2 j ^ 2) ^ 2 = 0 := by
  have h : (∑ j, fitCenter badRes2 j ^ 2) = 0 := by
    rw [Fin.sum_univ_three, show fitCenter badRes2 0 = 0 from rfl,
      show fitCenter badRes2 1 = 0 from rfl, show fitCenter badRes2 2 = 0 from rfl]
    norm_num
  rw [h, Real.sqrt_zero]
  norm_num

/-- C1 counterexample: at the concrete solution vector `badRes` the solved
parameter `k = 1` exceeds the squared norm `0` of the recovered center, yet
the radius computation of the cell returns the junk value `0` (the
real-arithmetic model of `np.sqrt` of a negative number, which is `nan`)
with no invalid-result signal of any kind: the cell has no validity check
and its result type has no error channel, so nothing is surfaced to the
caller. -/
theorem sphere_radius_silent_zero_cex :
    Real.sqrt (∑ j, fitCenter badRes j ^ 2) ^ 2 < badRes 3 ∧ fitRadius badRes = 0 := by
  constructor
  · rw [badRes_center_sq]
    norm_num [badRes]
  · unfold fitRadius
    apply Real.sqrt_eq_zero_of_nonpos
    rw [badRes_center_sq]
    norm_num [badRes]

/-- C1 amended: the sphere-fit cell performs no validity check on the
implied squared radius. Whenever the solved parameter `k` exceeds the
squared norm of the recovered center, the radius computation silently
returns an invalid junk value (`0` in this real-arithmetic model of
`np.sqrt` of a negative argument, `nan` in floating point) with no
signaling to the caller. -/
theorem sphere_radius_invalid_masked (res : Fin 4 → ℝ)
    (h : Real.sqrt (∑ j, fitCenter res j ^ 2) ^ 2 < res 3) :
    fitRadius res = 0 := by
  unfold fitRadius
  exact Real.sqrt_eq_zero_of_nonpos (by linarith)

theorem sphere_radius_invalid_masked_witness :
    Real.sqrt (∑ j, fitCenter badRes2 j ^ 2) ^ 2 < badRes2 3 ∧ fitRadius badRes2 = 0 := by
  have h : Real.sqrt (∑ j, fitCenter badRes2 j ^ 2) ^ 2 < badRes2 3 := by
    rw [badRes2_center_sq]
    norm_num [show badRes2 3 = 2 from rfl]
  exact ⟨h, sphere_radius_invalid_masked badRes2 h⟩

/-! ## Paired-point registration errors (`registration_utilities.registration_errors`)

The notebooks import `registration_errors` from `registration_utilities.py`,
which is not part of this snapshot; only call sites are, e.g.
`pre_errors_mean, pre_errors_std, _, pre_errors_max, pre_errors =
ru.registration_errors(tx, fixed_points, moving_points, ...)`. The function
is therefore modelled from the specification. -/

/-- Euclidean distance between two points of `ℝ^n`. -/
noncomputable def euclideanDist {n : ℕ} (p q : Fin n → ℝ) : ℝ :=
  Real.sqrt (∑ j, (p j - q j) ^ 2)

/-- Arithmetic mean of a list of reals (the model of `np.mean`). -/
noncomputable def listMean (l : List ℝ) : ℝ := l.sum / l.length

/-- Population standard deviation (the model of `np.std`). -/
noncomputable def listStd (l : List ℝ) : ℝ :=
  Real.sqrt (listMean (l.map fun x => (x - listMean l) ^ 2))

/-- Minimum of a list of reals (the model of `np.min` on a non-empty list). -/
noncomputable def listMinR : List ℝ → ℝ
  | [] => 0
  | x :: xs => xs.foldl min x

/-- Maximum of a list of reals (the model of `np.max` on a non-empty list). -/
noncomputable def listMaxR : List ℝ → ℝ
  | [] => 0
  | x :: xs => xs.foldl max x

/-- The error raised when the two point sequences differ in length. -/
inductive RegError : Type
  | dimensionMismatch (srcLen tgtLen : ℕ) : RegError
deriving DecidableEq

/-- Modelled from the spec: `registration_errors` lives in
`registration_utilities.py`, which is missing from this snapshot. Per the
specification it maps a transform and two index-aligned point sequences to
the 5-tuple `(mean, std, min, max, per_point_errors)` of the per-pair
Euclidean residual distances between the transformed source point and the
corresponding target point, and it fails with a `DimensionMismatch` error
when the two sequences differ in length, never truncating or padding. The
optional display argument is a side effect outside the core computation and
is not modelled. -/
noncomputable def registration_errors {n : ℕ} (T : (Fin n → ℝ) → Fin n → ℝ)
    (source_points target_points : List (Fin n → ℝ)) :
    Except RegError (ℝ × ℝ × ℝ × ℝ × List ℝ) :=
  if source_points.length = target_points.length then
    let errs := (source_points.zip target_points).map fun pq =>
      euclideanDist (T pq.1) pq.2
    Except.ok (listMean errs, listStd errs, listMinR errs, listMaxR errs, errs)
  else
    Except.error (RegError.dimensionMismatch source_points.length target_points.length)

/-- C4: for equal-length inputs, `registration_errors` returns the 5-tuple
`(mean, std, min, max, per-point distances)` where the distance at index
`i` is the Euclidean distance between the transform applied to source point
`i` and target point `i`, and the summary statistics are exactly the mean,
standard deviation, minimum and maximum of that distance list; being a plain
function of its arguments, the computation is pure. -/
theorem registration_errors_correct {n : ℕ} (T : (Fin n → ℝ) → Fin n → ℝ)
    (source_points target_points : List (Fin n → ℝ))
    (h : source_points.length = target_points.length) :
    ∃ errs : List ℝ,
      registration_errors T source_points target_points =
        Except.ok (listMean errs, listStd errs, listMinR errs, listMaxR errs, errs) ∧
      errs.length = source_points.length ∧
      ∀ i : ℕ, i < source_points.length →
        errs.getD i 0 =
          euclideanDist (T (source_points.getD i (fun _ => 0)))
            (target_points.getD i (fun _ => 0)) := by
  refine ⟨(source_points.zip target_points).map fun pq => euclideanDist (T pq.1) pq.2,
    ?_, ?_, ?_⟩
  · unfold registration_errors
    rw [if_pos h]
  · rw [List.length_map, List.length_zip, h, min_self]
  · intro i hi
    have hlz : i < ((source_points.zip target_points).map fun pq =>
        euclideanDist (T pq.1) pq.2).length := by
      rw [List.length_map, List.length_zip, h, min_self, ← h]
      exact hi
    have hsi : i < source_points.length := hi
    have hti : i < target_points.length := h ▸ hi
    rw [List.getD_eq_getElem _ _ hlz, List.getElem_map, List.getElem_zip,
      List.getD_eq_getElem _ _ hsi, List.getD_eq_getElem _ _ hti]

theorem registration_errors_correct_witness :
    ([fun _ => (0 : ℝ)] : List (Fin 3 → ℝ)).length =
      ([fun _ => (1 : ℝ)] : List (Fin 3 → ℝ)).length ∧
    ∃ errs : List ℝ,
      registration_errors (fun p => p) [fun _ => (0 : ℝ)]
          ([fun _ => (1 : ℝ)] : List (Fin 3 → ℝ)) =
        Except.ok (listMean errs, listStd errs, listMinR errs, listMaxR errs, errs) ∧
      errs.length = ([fun _ => (0 : ℝ)] : List (Fin 3 → ℝ)).length ∧
      ∀ i : ℕ, i < ([fun _ => (0 : ℝ)] : List (Fin 3 → ℝ)).length →
        errs.getD i 0 =
          euclideanDist ((fun p => p) (([fun _ => (0 : ℝ)] :
            List (Fin 3 → ℝ)).getD i (fun _ => 0)))
            (([fun _ => (1 : ℝ)] : List (Fin 3 → ℝ)).getD i (fun _ => 0)) :=
  ⟨rfl, registration_errors_correct (fun p => p) [fun _ => (0 : ℝ)]
    [fun _ => (1 : ℝ)] rfl⟩

/-- C5: `registration_errors` fails with a `DimensionMismatch` error exactly
when the two point sequences differ in length; for equal-length inputs it
returns an `ok` result whose per-point error list has the common length of
the two inputs, so neither sequence is truncated or padded. -/
theorem registration_errors_mismatch {n : ℕ} (T : (Fin n → ℝ) → Fin n → ℝ)
    (source_points target_points : List (Fin n → ℝ)) :
    (source_points.length ≠ target_points.length →
      registration_errors T source_points target_points =
        Except.error (RegError.dimensionMismatch source_points.length
          target_points.length)) ∧
    (source_points.length = target_points.length →
      ∃ a b c d errs, registration_errors T source_points target_points =
        Except.ok (a, b, c, d, errs) ∧
        errs.length = source_points.length ∧ errs.length = target_points.length) := by
  constructor
  · intro hne
    unfold registration_errors
    rw [if_neg hne]
  · intro heq
    set errs := (source_points.zip target_points).map fun pq =>
      euclideanDist (T pq.1) pq.2 with herrs
    refine ⟨listMean errs, listStd errs, listMinR errs, listMaxR errs, errs,
      ?_, ?_, ?_⟩
    · unfold registration_errors
      rw [if_pos heq]
    · rw [herrs, List.length_map, List.length_zip, heq, min_self, ← heq]
    · rw [herrs, List.length_map, List.length_zip, heq, min_self]

theorem registration_errors_mismatch_witness :
    ([fun _ => (0 : ℝ)] : List (Fin 3 → ℝ)).length ≠ ([] : List (Fin 3 → ℝ)).length ∧
    registration_errors (fun p => p) [fun _ => (0 : ℝ)] ([] : List (Fin 3 → ℝ)) =
      Except.error (RegError.dimensionMismatch 1 0) :=
  ⟨by norm_num,
    (registration_errors_mismatch (fun p => p) [fun _ => (0 : ℝ)] []).1 (by norm_num)⟩

/-! ## Exploration phase of notebook 63

Two code paths evaluate the similarity metric over a list of candidate
orientations. The sequential cell keeps a running
`(best_orientation, best_similarity_value)` pair, starting from the initial
orientation `(0, 0, 0)` and updating it only on a strictly smaller metric
value. The parallel cell evaluates the metric over
`orientations_list = [(0, 0, 0)] + list(all_orientations.values())` with a
thread pool and selects `orientations_list[np.argmin(all_metric_values)]`.
`evaluate_metric` contains no exception handling, so an exception raised for
one candidate propagates out of `ThreadPool.map`. The metric value type is
abstracted by a linear order. -/

/-- Running state of the sequential loop: the pair
`(best_orientation, best_similarity_value)` updated on a strictly smaller
current value. -/
def seqBestAux {α β : Type} [LinearOrder β] (f : α → β) :
    α × β → List α → α × β
  | bv, [] => bv
  | (b, v), o :: rest =>
    if f o < v then seqBestAux f (o, f o) rest else seqBestAux f (b, v) rest

/-- The orientation selected by the sequential loop, started at the initial
orientation `first` with metric value `f first`. -/
def seqBest {α β : Type} [LinearOrder β] (f : α → β) (first : α)
    (rest : List α) : α :=
  (seqBestAux f (first, f first) rest).1

/-- Smallest value of a list, `none` on the empty list. -/
def minVal? {β : Type} [LinearOrder β] : List β → Option β
  | [] => none
  | v :: vs =>
    some (match minVal? vs with
      | none => v
      | some m => min v m)

/-- Index of the first occurrence of the minimum of a list, the model of
`np.argmin`. -/
def argminIdx {β : Type} [LinearOrder β] : List β → ℕ
  | [] => 0
  | v :: vs =>
    match minVal? vs with
    | none => 0
    | some m => if m < v then argminIdx vs + 1 else 0

/-- The orientation selected by the parallel cell:
`orientations_list[np.argmin(all_metric_values)]` where
`all_metric_values = p.map(evaluate_metric, orientations_list)` and
`orientations_list = first :: rest`. -/
def parBest {α β : Type} [LinearOrder β] (f : α → β) (first : α)
    (rest : List α) : α :=
  (first :: rest).getD (argminIdx ((first :: rest).map f)) first

lemma minVal?_eq_none {β : Type} [LinearOrder β] :
    ∀ l : List β, minVal? l = none ↔ l = []
  | [] => by simp [minVal?]
  | v :: vs => by simp [minVal?]

lemma argminIdx_lt_length {β : Type} [LinearOrder β] :
    ∀ l : List β, l ≠ [] → argminIdx l < l.length
  | [], h => absurd rfl h
  | v :: vs, _ => by
    cases hm : minVal? vs with
    | none => simp [argminIdx, hm]
    | some m =>
      by_cases hlt : m < v
      · have hvs : vs ≠ [] := by
          intro hnil
          rw [hnil] at hm
          simp [minVal?] at hm
        simp only [argminIdx, hm, if_pos hlt, List.length_cons]
        exact Nat.succ_lt_succ (argminIdx_lt_length vs hvs)
      · simp [argminIdx, hm, hlt]

lemma getD_default_irrel {α : Type} (l : List α) (i : ℕ) (d d' : α)
    (h : i < l.length) : l.getD i d = l.getD i d' := by
  rw [List.getD_eq_getElem _ _ h, List.getD_eq_getElem _ _ h]

lemma seqBestAux_eq_parIdx {α β : Type} [LinearOrder β] (f : α → β) :
    ∀ (rest : List α) (b : α),
      (seqBestAux f (b, f b) rest).1 =
        (b :: rest).getD (argminIdx ((b :: rest).map f)) b := by
  intro rest
  induction rest with
  | nil => intro b; simp [seqBestAux, argminIdx, minVal?]
  | cons o t ih =>
    intro b
    by_cases hlt : f o < f b
    · have hL : (seqBestAux f (b, f b) (o :: t)).1 = (seqBestAux f (o, f o) t).1 := by
        simp [seqBestAux, hlt]
      rw [hL, ih o]
      have hmo : ∃ m, minVal? (f o :: t.map f) = some m ∧ m ≤ f o := by
        cases hmt : minVal? (t.map f) with
        | none => exact ⟨f o, by simp [minVal?, hmt], le_refl _⟩
        | some mt => exact ⟨min (f o) mt, by simp [minVal?, hmt], min_le_left _ _⟩
      obtain ⟨m, hm, hmle⟩ := hmo
      have hmb : m < f b := lt_of_le_of_lt hmle hlt
      have hR : argminIdx ((b :: o :: t).map f) = argminIdx ((o :: t).map f) + 1 := by
        simp only [List.map_cons]
        simp [argminIdx, hm, hmb]
      rw [hR]
      have hbound : argminIdx ((o :: t).map f) < (o :: t).length := by
        have := argminIdx_lt_length ((o :: t).map f) (by simp)
        simpa using this
      calc ((o :: t).getD (argminIdx ((o :: t).map f)) o)
          = (o :: t).getD (argminIdx ((o :: t).map f)) b :=
            getD_default_irrel _ _ _ _ hbound
        _ = (b :: o :: t).getD (argminIdx ((o :: t).map f) + 1) b := by
            rw [List.getD_cons_succ]
    · have hle : f b ≤ f o := not_lt.mp hlt
      have hL : (seqBestAux f (b, f b) (o :: t)).1 = (seqBestAux f (b, f b) t).1 := by
        simp [seqBestAux, hlt]
      rw [hL, ih b]
      cases hmt : minVal? (t.map f) with
      | none =>
        have ht : t.map f = [] := (minVal?_eq_none _).mp hmt
        have ht' : t = [] := by
          cases t with
          | nil => rfl
          | cons a s => simp at ht
        subst ht'
        simp [argminIdx, minVal?, hlt]
      | some mt =>
        by_cases hmb : mt < f b
        · have hLidx : argminIdx ((b :: t).map f) = argminIdx (t.map f) + 1 := by
            simp only [List.map_cons]
            simp [argminIdx, hmt, hmb]
          have hRidx : argminIdx ((b :: o :: t).map f) =
              argminIdx ((o :: t).map f) + 1 := by
            simp only [List.map_cons]
            have hmin : minVal? (f o :: t.map f) = some (min (f o) mt) := by
              simp [minVal?, hmt]
            have : min (f o) mt < f b := lt_of_le_of_lt (min_le_right _ _) hmb
            simp [argminIdx, hmin, this]
          have hRidx2 : argminIdx ((o :: t).map f) = argminIdx (t.map f) + 1 := by
            simp only [List.map_cons]
            have : mt < f o := lt_of_lt_of_le hmb hle
            simp [argminIdx, hmt, this]
          rw [hLidx, hRidx, hRidx2]
          rw [List.getD_cons_succ, List.getD_cons_succ, List.getD_cons_succ]
        · have hLidx : argminIdx ((b :: t).map f) = 0 := by
            simp only [List.map_cons]
            simp [argminIdx, hmt, hmb]
          have hRidx : argminIdx ((b :: o :: t).map f) = 0 := by
            simp only [List.map_cons]
            have hmin : minVal? (f o :: t.map f) = some (min (f o) mt) := by
              simp [minVal?, hmt]
            have : ¬ min (f o) mt < f b := by
              rw [not_lt]
              exact le_min hle (not_lt.mp hmb)
            simp [argminIdx, hmin, this]
          rw [hLidx, hRidx]
          simp [List.getD_cons_zero]

/-- C9: for every pure metric evaluation the parallel selection
(`np.argmin` over the metric values collected by the thread-pool map)
selects exactly the orientation selected by the sequential loop that keeps
the strictly smaller value; the scheduling of the independent evaluations
plays no role in the deterministic model, so the selected result agrees. -/
theorem parallel_selection_eq_sequential {α β : Type} [LinearOrder β]
    (f : α → β) (first : α) (rest : List α) :
    seqBest f first rest = parBest f first rest :=
  seqBestAux_eq_parIdx f rest first

/-! ## Failure propagation in the exploration map -/

/-- The thread-pool map of the exploration cell. `evaluate_metric` wraps the
library metric evaluation with no exception handling, so the map stops at
the first failing candidate and re-raises its error; values are collected
only when every evaluation succeeds. -/
def exploreMapM {α β ε : Type} (f : α → Except ε β) : List α → Except ε (List β)
  | [] => Except.ok []
  | o :: rest =>
    match f o with
    | Except.error e => Except.error e
    | Except.ok v =>
      match exploreMapM f rest with
      | Except.error e => Except.error e
      | Except.ok vs => Except.ok (v :: vs)

/-- A metric evaluation that diverges on candidate `1` and succeeds on every
other candidate. -/
def failingEval : ℕ → Except String ℕ :=
  fun c => if c = 1 then Except.error "metric evaluation diverged" else Except.ok c

/-- C8 counterexample: with candidates `[0, 1, 2]` and an evaluation that
fails only on candidate `1`, the exploration map aborts the whole batch
with that error, even though candidates `0` and `2` evaluate fine; no
per-candidate catching or exclusion happens and no ranking list is
produced. -/
theorem exploration_abort_cex :
    exploreMapM failingEval [0, 1, 2] =
      Except.error "metric evaluation diverged" ∧
    failingEval 0 = Except.ok 0 ∧ failingEval 2 = Except.ok 2 :=
  ⟨rfl, rfl, rfl⟩

/-- C8 amended: the exploration map has no per-candidate failure isolation.
If any candidate's metric evaluation fails, the whole batch aborts with an
error and no value list is produced; only when every candidate's evaluation
succeeds does the map return the full list of collected metric values. -/
theorem exploration_error_propagates {α β ε : Type} (f : α → Except ε β)
    (cands : List α) :
    ((∃ c ∈ cands, ∃ e, f c = Except.error e) →
      ∃ e2, exploreMapM f cands = Except.error e2) ∧
    ((∀ c ∈ cands, ∃ v, f c = Except.ok v) →
      ∃ vs, exploreMapM f cands = Except.ok vs ∧ vs.length = cands.length) := by
  induction cands with
  | nil =>
    constructor
    · rintro ⟨c, hc, _⟩
      simp at hc
    · intro _
      exact ⟨[], rfl, rfl⟩
  | cons o rest ih =>
    constructor
    · rintro ⟨c, hc, e, he⟩
      cases hfo : f o with
      | error e' => exact ⟨e', by simp [exploreMapM, hfo]⟩
      | ok v =>
        rcases List.mem_cons.mp hc with rfl | hmem
        · rw [hfo] at he
          exact absurd he (by simp)
        · obtain ⟨e2, h2⟩ := ih.1 ⟨c, hmem, e, he⟩
          exact ⟨e2, by simp [exploreMapM, hfo, h2]⟩
    · intro hall
      obtain ⟨v, hv⟩ := hall o (List.mem_cons_self o rest)
      obtain ⟨vs, hvs, hlen⟩ := ih.2 fun c hc => hall c (List.mem_cons_of_mem o hc)
      exact ⟨v :: vs, by simp [exploreMapM, hv, hvs], by simp [hlen]⟩

theorem exploration_error_propagates_witness :
    (∃ c ∈ [3, 1], ∃ e, failingEval c = Except.error e) ∧
    ∃ e2, exploreMapM failingEval [3, 1] = Except.error e2 := by
  have h : ∃ c ∈ [3, 1], ∃ e, failingEval c = Except.error e :=
    ⟨1, by decide, "metric evaluation diverged", rfl⟩
  exact ⟨h, (exploration_error_propagates failingEval [3, 1]).1 h⟩

/-! ## Exploitation step of notebook 63

The cell sorts `metricvalue_parameters_list` with
`sort(key=lambda x: x[0])`, sets
`k_most_promising = min(3, len(metricvalue_parameters_list))`, runs
`multires_registration` (which returns a `(transform, metric_value)` pair)
from each entry of the slice `[0:k_most_promising]` and finally takes
`min(final_results, key=lambda x: x[1])`. Metric values are abstracted by a
linear order, parameter vectors and transforms by opaque types. -/

/-- Comparison by metric value, the sort key `lambda x: x[0]`. -/
def metricLE {β π : Type} [LinearOrder β] (a b : β × π) : Prop := a.1 ≤ b.1

instance {β π : Type} [LinearOrder β] : DecidableRel (@metricLE β π _) :=
  fun a b => inferInstanceAs (Decidable (a.1 ≤ b.1))

instance {β π : Type} [LinearOrder β] : IsTotal (β × π) metricLE :=
  ⟨fun a b => le_total a.1 b.1⟩

instance {β π : Type} [LinearOrder β] : IsTrans (β × π) metricLE :=
  ⟨fun _ _ _ hab hbc => le_trans hab hbc⟩

/-- The sort of the exploitation cell. Python `list.sort(key=...)` is a
stable comparison sort by the key; insertion sort is the standard stable
model of it. -/
def sortByMetric {β π : Type} [LinearOrder β] (l : List (β × π)) : List (β × π) :=
  l.insertionSort metricLE

/-- Python `min(l, key=key)`: the first element with minimal key; on an
empty list Python raises `ValueError`, modelled by `none`. -/
def minByKey {α β : Type} [LinearOrder β] (key : α → β) : List α → Option α
  | [] => none
  | x :: xs => some (xs.foldl (fun b y => if key y < key b then y else b) x)

/-- The exploitation step with exploit count `k`: sort ascending by metric
value, refine the first `k` entries, and keep the refined result with the
smallest final metric value. -/
def exploitK {β π τ : Type} [LinearOrder β] (refine : π → τ × β) (k : ℕ)
    (l : List (β × π)) : Option (τ × β) :=
  minByKey (fun x => x.2) (((sortByMetric l).take k).map fun mp => refine mp.2)

/-- The exploitation cell as written: `k_most_promising = min(3, len(...))`. -/
def exploitation {β π τ : Type} [LinearOrder β] (refine : π → τ × β)
    (l : List (β × π)) : Option (τ × β) :=
  exploitK refine (min 3 l.length) l

lemma foldlMin_spec {α β : Type} [LinearOrder β] (key : α → β) :
    ∀ (xs : List α) (x : α),
      (xs.foldl (fun b y => if key y < key b then y else b) x) ∈ x :: xs ∧
      ∀ z ∈ x :: xs,
        key (xs.foldl (fun b y => if key y < key b then y else b) x) ≤ key z := by
  intro xs
  induction xs with
  | nil =>
    intro x
    constructor
    · simp
    · intro z hz
      rw [List.mem_singleton] at hz
      rw [hz]
      exact le_refl (key x)
  | cons y ys ih =>
    intro x
    rw [List.foldl_cons]
    obtain ⟨hmem, hle⟩ := ih (if key y < key x then y else x)
    have hstart_x : key (if key y < key x then y else x) ≤ key x := by
      by_cases hc : key y < key x
      · rw [if_pos hc]; exact le_of_lt hc
      · rw [if_neg hc]
    have hstart_y : key (if key y < key x then y else x) ≤ key y := by
      by_cases hc : key y < key x
      · rw [if_pos hc]
      · rw [if_neg hc]; exact not_lt.mp hc
    constructor
    · rcases List.mem_cons.mp hmem with heq | hys
      · rw [heq]
        by_cases hc : key y < key x
        · rw [if_pos hc]
          exact List.mem_cons_of_mem x (List.mem_cons_self y ys)
        · rw [if_neg hc]
          exact List.mem_cons_self x (y :: ys)
      · exact List.mem_cons_of_mem x (List.mem_cons_of_mem y hys)
    · intro z hz
      have hself := hle _ (List.mem_cons_self _ ys)
      rcases List.mem_cons.mp hz with rfl | hz'
      · exact le_trans hself hstart_x
      · rcases List.mem_cons.mp hz' with rfl | hz''
        · exact le_trans hself hstart_y
        · exact hle _ (List.mem_cons_of_mem _ hz'')

lemma minByKey_spec {α β : Type} [LinearOrder β] (key : α → β) (l : List α)
    (h : l ≠ []) :
    ∃ x, minByKey key l = some x ∧ x ∈ l ∧ ∀ z ∈ l, key x ≤ key z := by
  cases l with
  | nil => exact absurd rfl h
  | cons a as =>
    obtain ⟨hmem, hle⟩ := foldlMin_spec key as a
    exact ⟨_, rfl, hmem, hle⟩

lemma sortByMetric_length {β π : Type} [LinearOrder β] (l : List (β × π)) :
    (sortByMetric l).length = l.length :=
  (List.perm_insertionSort metricLE l).length_eq

lemma min3_pos {β π : Type} [LinearOrder β] (l : List (β × π)) (hne : l ≠ []) :
    0 < min 3 l.length :=
  lt_min (by norm_num) (List.length_pos.mpr hne)

lemma take_min3_ne_nil {β π : Type} [LinearOrder β] (l : List (β × π))
    (hne : l ≠ []) : (sortByMetric l).take (min 3 l.length) ≠ [] := by
  rw [← List.length_pos, List.length_take, sortByMetric_length]
  exact lt_min (min3_pos l hne) (List.length_pos.mpr hne)

lemma exploitK_min_spec {β π τ : Type} [LinearOrder β] (refine : π → τ × β)
    (k : ℕ) (l : List (β × π)) (h : (sortByMetric l).take k ≠ []) :
    ∃ result, exploitK refine k l = some result ∧
      result ∈ ((sortByMetric l).take k).map (fun mp => refine mp.2) ∧
      ∀ y ∈ ((sortByMetric l).take k).map (fun mp => refine mp.2),
        result.2 ≤ y.2 := by
  have hmap_ne : (((sortByMetric l).take k).map fun mp => refine mp.2) ≠ [] := by
    simpa [List.map_eq_nil_iff] using h
  obtain ⟨x, hx, hxm, hxle⟩ := minByKey_spec (fun x => x.2) _ hmap_ne
  exact ⟨x, hx, hxm, hxle⟩

/-- C6: the exploitation step sorts the collected
`(metric_value, parameters)` pairs into an ascending permutation of the
collected list, every entry of the refined slice (the `min(3, len)` lowest
metric values) is at most every dropped entry, the slice alone is refined,
and among the refined results the one with the smallest final metric value
is returned. -/
theorem exploitation_step {β π τ : Type} [LinearOrder β] (refine : π → τ × β)
    (l : List (β × π)) (hne : l ≠ []) :
    List.Sorted metricLE (sortByMetric l) ∧
    List.Perm (sortByMetric l) l ∧
    (∀ a ∈ (sortByMetric l).take (min 3 l.length),
      ∀ b ∈ (sortByMetric l).drop (min 3 l.length), a.1 ≤ b.1) ∧
    ∃ result, exploitation refine l = some result ∧
      result ∈ ((sortByMetric l).take (min 3 l.length)).map (fun mp => refine mp.2) ∧
      ∀ y ∈ ((sortByMetric l).take (min 3 l.length)).map (fun mp => refine mp.2),
        result.2 ≤ y.2 := by
  refine ⟨List.sorted_insertionSort _ _, List.perm_insertionSort _ _, ?_, ?_⟩
  · intro a ha b hb
    exact List.Sorted.rel_of_mem_take_of_mem_drop
      (List.sorted_insertionSort metricLE l) ha hb
  · exact exploitK_min_spec refine _ l (take_min3_ne_nil l hne)

/-- Collected pairs for the demonstration runs. -/
def demoList : List (ℚ × ℕ) := [(2, 20), (1, 10), (3, 30)]

/-- Demonstration refinement function. -/
def demoRefine : ℕ → ℕ × ℚ := fun p => (p, (p : ℚ) / 2)

theorem exploitation_step_witness :
    demoList ≠ [] ∧ List.Sorted metricLE (sortByMetric demoList) :=
  ⟨by decide, (exploitation_step demoRefine demoList (by decide)).1⟩

/-- C7: when the exploit count `k` equals the number of collected
candidates, the final metric value of the returned refined result is at
most the final metric value of the refinement of any single candidate. -/
theorem exploit_all_candidates_best {β π τ : Type} [LinearOrder β]
    (refine : π → τ × β) (l : List (β × π)) (hne : l ≠ []) :
    ∃ result, exploitK refine l.length l = some result ∧
      ∀ c ∈ l, result.2 ≤ (refine c.2).2 := by
  have htake : (sortByMetric l).take l.length = sortByMetric l := by
    apply List.take_of_length_le
    rw [sortByMetric_length]
  have htake_ne : (sortByMetric l).take l.length ≠ [] := by
    rw [htake, ← List.length_pos, sortByMetric_length]
    exact List.length_pos.mpr hne
  obtain ⟨result, hres, _, hle⟩ := exploitK_min_spec refine l.length l htake_ne
  refine ⟨result, hres, ?_⟩
  intro c hc
  have hc' : c ∈ sortByMetric l :=
    ((List.perm_insertionSort metricLE l).mem_iff).mpr hc
  apply hle
  rw [htake]
  exact List.mem_map_of_mem _ hc'

theorem exploit_all_candidates_best_witness :
    demoList ≠ [] ∧
    ∃ result, exploitK demoRefine demoList.length demoList = some result ∧
      ∀ c ∈ demoList, result.2 ≤ (demoRefine c.2).2 :=
  ⟨by decide, exploit_all_candidates_best demoRefine demoList (by decide)⟩

/-- C10: for every non-empty collected list, the exploit count
`min(3, len)` is positive, the slice of the best candidates is non-empty
(no out-of-range access), at least one refinement runs, and the final
minimum over the refined results exists, also when fewer than 3 candidates
were collected. -/
theorem exploitation_safe {β π τ : Type} [LinearOrder β] (refine : π → τ × β)
    (l : List (β × π)) (hne : l ≠ []) :
    0 < min 3 l.length ∧
    (sortByMetric l).take (min 3 l.length) ≠ [] ∧
    ((sortByMetric l).take (min 3 l.length)).map (fun mp => refine mp.2) ≠ [] ∧
    ∃ result, exploitation refine l = some result := by
  have htake := take_min3_ne_nil l hne
  obtain ⟨result, hres, _, _⟩ := exploitK_min_spec refine (min 3 l.length) l htake
  exact ⟨min3_pos l hne, htake, by simpa [List.map_eq_nil_iff] using htake,
    result, hres⟩

/-- Collected pairs shorter than the exploit bound 3. -/
def demoShort : List (ℚ × ℕ) := [(5, 50)]

theorem exploitation_safe_witness :
    demoShort ≠ [] ∧
    (0 < min 3 demoShort.length ∧
      ∃ result, exploitation demoRefine demoShort = some result) := by
  have h := exploitation_safe demoRefine demoShort (by decide)
  exact ⟨by decide, h.1, h.2.2.2⟩

end SITK
